import Mathlib

/-!
Verification development for the skie file-synchronization engine.

Shallow embedding of:
  * the fastcdc `StreamCDC` chunker as used by the repository (abstracted over
    the content-defined cut decision, which is a pure function of the
    configuration and the remaining bytes),
  * the pipeline entry point `get_chunk_hashes` (src/skie-index/src/hash_engine.rs),
  * the source-to-records adapter `chunk_source` (src/store/src/lib.rs),
  * the persistence layer for chunk rows and file-section rows
    (src/diff-store/src/chunk_store.rs, src/diff-store/src/file_section.rs),
  * the watcher event classification and loop body (src/service/src/main.rs).

Bytes are modelled as `Nat`, digests as `Nat` (the 256-bit blake3 digest is an
opaque value; the hash function is an arbitrary parameter `H`), file ids as
`String` (the code stores `file_id.to_string()`), and the i64 columns of the
database as `Int`.
-/

namespace Skie

/-- CDC parameters; mirrors `ChunkConfig` in src/store/src/lib.rs and the
min/avg/max fields of `IndexEngineConfig` used in src/skie-index/src/hash_engine.rs. -/
structure ChunkConfig where
  min_chunk_size : Nat
  avg_chunk_size : Nat
  max_chunk_size : Nat
deriving DecidableEq

/-- Default CDC parameters of the store crate (512 B min, 1 KiB avg, 2 KiB max). -/
def defaultChunkConfig : ChunkConfig := ⟨512, 1024, 2048⟩

/-- One chunk produced by the fastcdc `StreamCDC` iterator: byte offset from the
start of the source, byte length, and the chunk bytes themselves
(`ChunkData { offset, length, data }` of the fastcdc crate; `length = data.len()`). -/
structure ChunkData where
  offset : Nat
  length : Nat
  data : List Nat
deriving DecidableEq

/-- A content-defined cut decision: given the configuration and the bytes that
remain, the length of the next chunk.  The fastcdc gear-hash cut point is one
such function; the claims hold for every cut decision, so the embedding keeps
it abstract. -/
abbrev CutFun := ChunkConfig → List Nat → Nat

/-- Clamp a cut decision to the progress guarantee of the fastcdc crate: on a
nonempty rest the next chunk takes at least one byte and at most all of them. -/
def nextCut (cut : CutFun) (cfg : ChunkConfig) (bs : List Nat) : Nat :=
  min (max (cut cfg bs) 1) bs.length

theorem nextCut_pos (cut : CutFun) (cfg : ChunkConfig) (b : Nat) (rest : List Nat) :
    1 ≤ nextCut cut cfg (b :: rest) := by
  refine Nat.le_min.mpr ⟨Nat.le_max_right _ _, ?_⟩
  simp

theorem nextCut_le (cut : CutFun) (cfg : ChunkConfig) (bs : List Nat) :
    nextCut cut cfg bs ≤ bs.length :=
  Nat.min_le_right _ _

/-- Sequential embedding of the fastcdc `StreamCDC` iterator: starting at byte
offset `off`, repeatedly cut the next chunk from the remaining bytes.  The
offset of each emitted chunk is the running byte count and its data are exactly
the bytes it consumed. -/
def streamCDC (cut : CutFun) (cfg : ChunkConfig) (off : Nat) (bs : List Nat) :
    List ChunkData :=
  match bs with
  | [] => []
  | b :: rest =>
    let n := nextCut cut cfg (b :: rest)
    { offset := off, length := n, data := (b :: rest).take n } ::
      streamCDC cut cfg (off + n) ((b :: rest).drop n)
termination_by bs.length
decreasing_by
  have h1 : 1 ≤ nextCut cut cfg (b :: rest) := nextCut_pos cut cfg b rest
  simp only [List.length_drop, List.length_cons]
  omega

/-- The chunker consumes the source completely: the chunk lengths sum to the
number of source bytes. -/
theorem streamCDC_sum_length (cut : CutFun) (cfg : ChunkConfig) (off : Nat) (bs : List Nat) :
    ((streamCDC cut cfg off bs).map (fun cd => cd.length)).sum = bs.length := by
  induction off, bs using streamCDC.induct cut cfg with
  | case1 off => simp [streamCDC]
  | case2 off b rest n ih =>
    rw [streamCDC]
    simp only [List.map_cons, List.sum_cons]
    rw [ih]
    have h1 : 1 ≤ nextCut cut cfg (b :: rest) := nextCut_pos cut cfg b rest
    have h2 : nextCut cut cfg (b :: rest) ≤ (b :: rest).length := nextCut_le cut cfg _
    simp only [List.length_drop, List.length_cons] at *
    omega

/-- The first emitted chunk starts at the running offset. -/
theorem streamCDC_head_offset (cut : CutFun) (cfg : ChunkConfig) (off : Nat) (bs : List Nat)
    (cd : ChunkData) (h : (streamCDC cut cfg off bs).head? = some cd) : cd.offset = off := by
  cases bs with
  | nil => simp [streamCDC] at h
  | cons b rest =>
    rw [streamCDC] at h
    simp at h
    rw [← h]

/-- The chunker output is empty exactly for the empty source. -/
theorem streamCDC_eq_nil_iff (cut : CutFun) (cfg : ChunkConfig) (off : Nat) (bs : List Nat) :
    streamCDC cut cfg off bs = [] ↔ bs = [] := by
  cases bs with
  | nil => simp [streamCDC]
  | cons b rest => rw [streamCDC]; simp

/-- Contiguity: each chunk starts where the previous one ended. -/
theorem streamCDC_chain (cut : CutFun) (cfg : ChunkConfig) (off : Nat) (bs : List Nat) :
    List.Chain' (fun a b => b.offset = a.offset + a.length) (streamCDC cut cfg off bs) := by
  induction off, bs using streamCDC.induct cut cfg with
  | case1 off => simp [streamCDC]
  | case2 off b rest n ih =>
    rw [streamCDC]
    refine List.chain'_cons'.mpr ⟨?_, ih⟩
    intro cd hcd
    have := streamCDC_head_offset cut cfg (off + nextCut cut cfg (b :: rest))
      ((b :: rest).drop (nextCut cut cfg (b :: rest))) cd hcd
    simpa using this

/-- A chunk row: `ChunkTableEntry { hash: Vec<u8>, size: i64 }` of
src/diff-store/src/chunk_store.rs (and the identical type of the store crate).
The digest bytes are abstracted to an opaque `Nat`. -/
structure ChunkTableEntry where
  hash : Nat
  size : Int
deriving DecidableEq

/-- A file-section row: `FileSectionEntry { file_id, chunk_hash, length, offset }`
of src/diff-store/src/file_section.rs. -/
structure FileSectionEntry where
  file_id : String
  chunk_hash : Nat
  length : Int
  offset : Int
deriving DecidableEq

/-- Error kinds of the store crate (`DataStoreError`). -/
inductive DataStoreError where
  | ChunkingError : DataStoreError
  | DbError : DataStoreError
  | MigrationError : DataStoreError
  | NotFound : DataStoreError
deriving DecidableEq

/-- Embedding of `chunk_source` (src/store/src/lib.rs): run `StreamCDC` over the
source bytes and map every chunk to a chunk row and a section row carrying the
given file id.  `H` stands for the blake3 digest of the chunk bytes.  A pure
in-memory source never fails to read, so the result is always `Ok`; the Rust
error paths are reader failures and CDC parameter violations. -/
def chunk_source (H : List Nat → Nat) (cut : CutFun) (file_id : String)
    (source : List Nat) (chunk_config : Option ChunkConfig) :
    Except DataStoreError (List ChunkTableEntry × List FileSectionEntry) :=
  let cfg := chunk_config.getD defaultChunkConfig
  let cks := streamCDC cut cfg 0 source
  .ok (cks.map (fun cd => { hash := H cd.data, size := Int.ofNat cd.length }),
       cks.map (fun cd => { file_id := file_id, chunk_hash := H cd.data,
                            length := Int.ofNat cd.length, offset := Int.ofNat cd.offset }))

/-- The record type produced by the hashing stage:
`ChunkMetadata { index, hash, offset, length }` of src/skie-common. -/
structure ChunkMetadata where
  index : Nat
  hash : Nat
  offset : Nat
  length : Nat
deriving DecidableEq

/-- Error kinds of src/skie-index/src/hash_engine.rs (`HashEngineError`).  The
`HashError` payload in the Rust code is the vector of failed records collected
by the collector; after its `filter(is_err)` every element is an error, so the
embedding stores the list of error payloads. -/
inductive HashEngineError where
  | IoError : HashEngineError
  | SendDataError : HashEngineError
  | ChunkError : HashEngineError
  | ThreadPoolError : HashEngineError
  | HashError : List HashEngineError → HashEngineError

/-- Items travelling on the cutter channel `tx`/`rx`. -/
abbrev CutterItem := Except HashEngineError (Nat × ChunkData)

/-- Items travelling on the hasher channel `output_tx`/`output_rx`. -/
abbrev HashedItem := Except HashEngineError (Nat × ChunkMetadata)

/-- `enumerate()` over an iterator, starting at `n`. -/
def enumFrom {α : Type} : Nat → List α → List (Nat × α)
  | _, [] => []
  | n, x :: xs => (n, x) :: enumFrom (n + 1) xs

/-- The cutter task of `get_chunk_hashes`: open the file (a `none` source is an
open failure, which sends a single `IoError` and returns), then enumerate the
`StreamCDC` chunks into the channel.  A pure byte list never fails mid-stream,
so all chunk results are `Ok`. -/
def cutterOut (cut : CutFun) (cfg : ChunkConfig) (src : Option (List Nat)) :
    List CutterItem :=
  match src with
  | none => [.error .IoError]
  | some bs => (enumFrom 0 (streamCDC cut cfg 0 bs)).map .ok

/-- The hasher stage of `get_chunk_hashes`: hash each chunk and build its
`ChunkMetadata`; errors pass through unchanged. -/
def hasherOut (H : List Nat → Nat) (xs : List CutterItem) : List HashedItem :=
  xs.map fun item =>
    match item with
    | .ok (i, cd) => .ok (i, { index := i, hash := H cd.data,
                               offset := cd.offset, length := cd.length })
    | .error e => .error e

/-- Whether a hashed item is an error (`res.is_err()`). -/
def isErrItem : HashedItem → Bool
  | .error _ => true
  | .ok _ => false

/-- Extract the error payload of a hashed item, if any. -/
def errPayload : HashedItem → Option HashEngineError
  | .error e => some e
  | .ok _ => none

/-- The collector of `get_chunk_hashes`, sequentialized.  The Rust code runs
`output_rx.iter().any(|res| res.is_err())` first: the blocking iterator hands
every received message to `any`, so by the time `any` returns the channel has
been consumed up to and including the first error (error case) or completely
drained (success case).
  * Error case: the follow-up `output_rx.iter().filter(is_err).collect()` can
    only see the messages after the first error, so the aggregate carries the
    errors strictly after the first one.
  * Success case: the follow-up `collect::<BTreeMap>` iterates an empty closed
    channel and yields the empty map (modelled as the empty sorted list of
    `(index, record)` pairs). -/
def collectorOut (xs : List HashedItem) :
    Except HashEngineError (List (Nat × ChunkMetadata)) :=
  if xs.any isErrItem then
    .error (.HashError (((xs.dropWhile fun x => !isErrItem x).drop 1).filterMap errPayload))
  else
    .ok []

/-- Embedding of the pipeline entry point `get_chunk_hashes`
(src/skie-index/src/hash_engine.rs): cutter, hasher and collector composed in
index order.  `src = none` models a path whose file cannot be opened. -/
def get_chunk_hashes (H : List Nat → Nat) (cut : CutFun) (cfg : ChunkConfig)
    (src : Option (List Nat)) : Except HashEngineError (List (Nat × ChunkMetadata)) :=
  collectorOut (hasherOut H (cutterOut cut cfg src))

/-- Whether the chunks table already holds a row with the given digest.
Modelled from the spec: the uniqueness key of the chunks table comes from the
migration files (db/migrations), which are not among the sources; spec section
4.3 gives the schema `chunks (digest BLOB PK, size INTEGER)`, so `INSERT OR
IGNORE` ignores exactly the rows whose digest is already present. -/
def chunkRowExists (t : List ChunkTableEntry) (d : Nat) : Bool :=
  t.any fun r => r.hash == d

/-- One execution of the statement
`INSERT OR IGNORE INTO chunks (hash, size) VALUES ($1, $2)`
(src/diff-store/src/chunk_store.rs); this is the body of both `store` and of
each loop iteration of `store_all`. -/
def insertOrIgnoreChunk (t : List ChunkTableEntry) (e : ChunkTableEntry) :
    List ChunkTableEntry :=
  if chunkRowExists t e.hash then t else t ++ [e]

/-- `store_all` for chunk rows: the insert statement for every item, in order
(the surrounding transaction always commits, since `INSERT OR IGNORE` does not
fail on duplicates).  Repeated `store` calls execute the same fold. -/
def storeAllChunks (t : List ChunkTableEntry) (items : List ChunkTableEntry) :
    List ChunkTableEntry :=
  items.foldl insertOrIgnoreChunk t

/-- Whether a section row matches the conflict target `(file_id, offset)` of
another entry. -/
def sectionKeyMatches (r e : FileSectionEntry) : Bool :=
  r.file_id == e.file_id && r.offset == e.offset

/-- One execution of the statement
`INSERT INTO file_sections ... ON CONFLICT(file_id, offset) DO UPDATE SET
chunk_hash = excluded.chunk_hash, length = excluded.length`
(src/diff-store/src/file_section.rs); the body of both `store` and of each
loop iteration of `store_all`. -/
def upsertSection (t : List FileSectionEntry) (e : FileSectionEntry) :
    List FileSectionEntry :=
  if t.any (fun r => sectionKeyMatches r e) then
    t.map fun r =>
      if sectionKeyMatches r e then
        { r with chunk_hash := e.chunk_hash, length := e.length }
      else r
  else t ++ [e]

/-- `store_all` for section rows: the upsert for every entry, in order. -/
def storeAllSections (t : List FileSectionEntry) (entries : List FileSectionEntry) :
    List FileSectionEntry :=
  entries.foldl upsertSection t

/-- The uniqueness invariant of the file_sections table.
Modelled from the spec: the primary key `(file_id, offset)` comes from the
migration files (db/migrations), which are not among the sources; spec section
4.3 gives `PRIMARY KEY (file_id, offset)`, and the `ON CONFLICT(file_id,
offset)` clause in the source requires that unique index to exist. -/
def SectionKeyNodup (t : List FileSectionEntry) : Prop :=
  List.Pairwise (fun a b => a.file_id ≠ b.file_id ∨ a.offset ≠ b.offset) t

/-- `ORDER BY offset ASC` on section rows. -/
def sectionLE (a b : FileSectionEntry) : Prop := a.offset ≤ b.offset

instance : DecidableRel sectionLE := fun a b => inferInstanceAs (Decidable (a.offset ≤ b.offset))

instance : IsTotal FileSectionEntry sectionLE := ⟨fun a b => Int.le_total a.offset b.offset⟩

instance : IsTrans FileSectionEntry sectionLE :=
  ⟨fun _ _ _ h1 h2 => le_trans (α := Int) h1 h2⟩

/-- `ORDER BY file_id, offset ASC` on section rows (the text column compares
lexicographically). -/
def sectionKeyLE (a b : FileSectionEntry) : Prop :=
  a.file_id < b.file_id ∨ (a.file_id = b.file_id ∧ a.offset ≤ b.offset)

instance : DecidableRel sectionKeyLE := fun a b =>
  inferInstanceAs (Decidable (a.file_id < b.file_id ∨ (a.file_id = b.file_id ∧ a.offset ≤ b.offset)))

instance : IsTotal FileSectionEntry sectionKeyLE := by
  constructor
  intro a b
  rcases lt_trichotomy a.file_id b.file_id with h | h | h
  · exact Or.inl (Or.inl h)
  · rcases Int.le_total a.offset b.offset with h2 | h2
    · exact Or.inl (Or.inr ⟨h, h2⟩)
    · exact Or.inr (Or.inr ⟨h.symm, h2⟩)
  · exact Or.inr (Or.inl h)

instance : IsTrans FileSectionEntry sectionKeyLE := by
  constructor
  intro a b c hab hbc
  rcases hab with h1 | ⟨h1, h1o⟩
  · rcases hbc with h2 | ⟨h2, _⟩
    · exact Or.inl (lt_trans h1 h2)
    · exact Or.inl (h2 ▸ h1)
  · rcases hbc with h2 | ⟨h2, h2o⟩
    · exact Or.inl (h1 ▸ h2)
    · exact Or.inr ⟨h1.trans h2, le_trans h1o h2o⟩

/-- `fetch_by` for the sections of one file (src/diff-store/src/file_section.rs):
select the rows of the file ordered by offset; an empty result is `NotFound`. -/
def fetchByFileSections (t : List FileSectionEntry) (fid : String) :
    Except DataStoreError (List FileSectionEntry) :=
  let entries := List.insertionSort sectionLE (t.filter fun r => r.file_id == fid)
  if entries.isEmpty then .error .NotFound else .ok entries

/-- The grouping loop of `fetch_many`: walk the flat row list, pushing the
current buffer whenever the file id changes, and push the final nonempty
buffer at the end. -/
def groupLoop (grouped : List (List FileSectionEntry)) (cur : List FileSectionEntry)
    (lastId : Option String) :
    List FileSectionEntry → List (List FileSectionEntry) × List FileSectionEntry
  | [] => (grouped, cur)
  | e :: rest =>
    match lastId with
    | some id =>
      if id ≠ e.file_id then groupLoop (grouped ++ [cur]) [e] (some e.file_id) rest
      else groupLoop grouped (cur ++ [e]) (some e.file_id) rest
    | none => groupLoop grouped (cur ++ [e]) (some e.file_id) rest

/-- Convert the flat `ORDER BY file_id, offset` row list into one group per
consecutive run of equal file ids, as the Rust grouping logic does. -/
def groupSections (flat : List FileSectionEntry) : List (List FileSectionEntry) :=
  if (groupLoop [] [] none flat).2.isEmpty then (groupLoop [] [] none flat).1
  else (groupLoop [] [] none flat).1 ++ [(groupLoop [] [] none flat).2]

/-- `fetch_many` for sections (src/diff-store/src/file_section.rs): empty key
list short-circuits to an empty result; otherwise select the rows of the
requested files ordered by `(file_id, offset)` and group consecutive runs. -/
def fetchManyFileSections (t : List FileSectionEntry) (fids : List String) :
    Except DataStoreError (List (List FileSectionEntry)) :=
  if fids.isEmpty then .ok []
  else
    let flat := List.insertionSort sectionKeyLE (t.filter fun r => fids.contains r.file_id)
    .ok (groupSections flat)

/-- A filesystem path, as its list of components (the classification code in
src/service/src/main.rs inspects paths only through equality and through
`components()`). -/
abbrev FsPath := List String

/-- Raw notify event kinds (`EventKind` of the notify crate). -/
inductive RawEventKind where
  | any : RawEventKind
  | access : RawEventKind
  | create : RawEventKind
  | modify : RawEventKind
  | remove : RawEventKind
  | other : RawEventKind
deriving DecidableEq

/-- A debounced raw event: kind, path set and arrival time
(`DebouncedEvent { event: Event { kind, paths, .. }, time }`). -/
structure DebouncedEvent where
  kind : RawEventKind
  paths : List FsPath
  time : Nat
deriving DecidableEq

/-- Logical event kinds (`OsEventKind` of src/service/src/main.rs). -/
inductive OsEventKind where
  | other : OsEventKind
  | access : OsEventKind
  | any : OsEventKind
  | create : OsEventKind
  | update : OsEventKind
  | remove : OsEventKind
deriving DecidableEq

/-- A logical event (`OsEvent` of src/service/src/main.rs). -/
structure OsEvent where
  kind : OsEventKind
  paths : List FsPath
  time : Nat
deriving DecidableEq

/-- `impl From<EventKind> for OsEventKind`. -/
def osEventKindOfRaw : RawEventKind → OsEventKind
  | .create => .create
  | .remove => .remove
  | .modify => .update
  | .access => .access
  | .any => .any
  | .other => .other

/-- Embedding of `build_events_iter` (src/service/src/main.rs): walk the
debounced batch; on a `Remove`, peek at the immediately next event, and if it
is a `Create` with the identical path set, consume it and emit a single
logical `Update` carrying the paths and time of the `Remove`; otherwise keep
the `Remove`.  Every other kind maps directly. -/
def build_events_iter : List DebouncedEvent → List OsEvent
  | [] => []
  | e :: rest =>
    if e.kind = .remove then
      match rest with
      | [] => [{ kind := .remove, paths := e.paths, time := e.time }]
      | nxt :: rest2 =>
        if nxt.kind = .create ∧ nxt.paths = e.paths then
          { kind := .update, paths := e.paths, time := e.time } :: build_events_iter rest2
        else
          { kind := .remove, paths := e.paths, time := e.time } :: build_events_iter (nxt :: rest2)
    else
      { kind := osEventKindOfRaw e.kind, paths := e.paths, time := e.time } :: build_events_iter rest

/-- The kind filter of the watcher loop: only `Create`, `Modify` and `Remove`
are data-changing events. -/
def isValidKind : RawEventKind → Bool
  | .create => true
  | .modify => true
  | .remove => true
  | _ => false

/-- The batch filter of the watcher loop in `main`: keep data-changing events
whose paths do not traverse a `.config` component. -/
def filterBatch (batch : List DebouncedEvent) : List DebouncedEvent :=
  batch.filter fun e =>
    isValidKind e.kind && !(e.paths.any fun p => p.contains ".config")

/-- What one iteration of the watcher loop decides to do next. -/
inductive LoopControl where
  | proceed : List OsEvent → LoopControl
  | fatal : LoopControl
deriving DecidableEq

/-- Embedding of the body of the receive loop in `main`
(src/service/src/main.rs, lines 154-176): filter the batch, classify it with
`build_events_iter`, and continue with the next batch.  The body inspects the
sync root in no way; the source carries a TODO noting that deletion of the
sync directory is an unhandled special case, and no path of the loop
terminates with an error. -/
def watcherIteration (syncRoot : FsPath) (batch : List DebouncedEvent) : LoopControl :=
  .proceed (build_events_iter (filterBatch batch))

/-! Concrete instantiations used by witnesses: an arbitrary cut decision and an
arbitrary digest function (the claims hold for every choice). -/

/-- A concrete cut decision for witnesses: always cut after two bytes. -/
def cutDemo : CutFun := fun _ _ => 2

/-- A concrete digest function for witnesses. -/
def hashDemo : List Nat → Nat := fun bs => bs.foldl (fun a b => a * 256 + b) 1

/-- Every item the hasher stage emits on a successfully opened source is `Ok`. -/
theorem hasherOut_some_ok (H : List Nat → Nat) (cut : CutFun) (cfg : ChunkConfig)
    (B : List Nat) (x : HashedItem)
    (hx : x ∈ hasherOut H (cutterOut cut cfg (some B))) : isErrItem x = false := by
  simp only [hasherOut, cutterOut, List.map_map, List.mem_map] at hx
  obtain ⟨p, _, rfl⟩ := hx
  rfl

/-- C1: the claim states that for every readable source and valid CDC
configuration, `get_chunk_hashes` returns `Ok` with one record per chunk.  The
code violates it: the collector first runs `output_rx.iter().any(...)`, which
drains and discards every record of a successful run, so the final collect
sees a closed empty channel and `get_chunk_hashes` returns `Ok` with an empty
map.  At the concrete four-byte source below, the hasher stage produced two
correct records (digest of exactly the chunk bytes, running offsets, indices
0 and 1), yet the returned map is empty. -/
theorem c1_collector_discards_all_records :
    get_chunk_hashes hashDemo cutDemo defaultChunkConfig (some [0, 1, 2, 3]) = .ok [] ∧
    hasherOut hashDemo (cutterOut cutDemo defaultChunkConfig (some [0, 1, 2, 3])) =
      [.ok (0, { index := 0, hash := hashDemo [0, 1], offset := 0, length := 2 }),
       .ok (1, { index := 1, hash := hashDemo [2, 3], offset := 2, length := 2 })] := by
  constructor
  · simp [get_chunk_hashes, collectorOut, hasherOut, cutterOut, enumFrom,
      streamCDC, nextCut, cutDemo, isErrItem]
  · simp [hasherOut, cutterOut, enumFrom, streamCDC, nextCut, cutDemo]

/-- C6: the claim states that the aggregate error of a failed run carries the
failure reason of every failed record.  The code violates it: the collector
detects the failure with `any(...)`, which consumes the first error from the
channel, so the subsequent `filter(is_err).collect()` only gathers the errors
strictly after the first one.  With a single failed record (unopenable path)
the aggregate is `HashError([])`, carrying no reason at all; with two failed
records only the second survives. -/
theorem c6_aggregate_error_loses_first_reason :
    get_chunk_hashes hashDemo cutDemo defaultChunkConfig none =
      .error (.HashError []) ∧
    collectorOut [.error .IoError, .error .ChunkError] =
      .error (.HashError [.ChunkError]) := by
  constructor <;> rfl

/-- C9: the claim states that a `Remove` event targeting the sync root itself
terminates the watcher loop with a fatal error.  The code violates it (the
source carries a TODO admitting the missing handling): the loop body
classifies such an event as an ordinary logical `Remove` and continues with
the next batch; no iteration outcome is ever fatal. -/
theorem c9_sync_root_removal_not_fatal :
    watcherIteration ["home", "sync"]
        [{ kind := .remove, paths := [["home", "sync"]], time := 0 }] =
      .proceed [{ kind := .remove, paths := [["home", "sync"]], time := 0 }] ∧
    ∀ (root : FsPath) (batch : List DebouncedEvent),
      ∃ evs, watcherIteration root batch = .proceed evs := by
  exact ⟨rfl, fun _ batch => ⟨_, rfl⟩⟩

/-- C8: in the watcher classification, a `Remove` whose immediately next event
is a `Create` with the identical path set collapses to a single logical
`Update` (consuming the `Create`); a `Remove` whose immediately next event is
not such a `Create` — or that has no next event — stays a `Remove`, and
classification continues with that very next event, so nothing beyond the
immediately next event is ever considered for pairing. -/
theorem c8_remove_create_collapse (e nxt : DebouncedEvent) (rest : List DebouncedEvent)
    (he : e.kind = .remove) :
    (nxt.kind = .create → nxt.paths = e.paths →
      build_events_iter (e :: nxt :: rest) =
        { kind := .update, paths := e.paths, time := e.time } :: build_events_iter rest) ∧
    (¬(nxt.kind = .create ∧ nxt.paths = e.paths) →
      build_events_iter (e :: nxt :: rest) =
        { kind := .remove, paths := e.paths, time := e.time } ::
          build_events_iter (nxt :: rest)) ∧
    build_events_iter [e] = [{ kind := .remove, paths := e.paths, time := e.time }] := by
  refine ⟨fun h1 h2 => ?_, fun h => ?_, ?_⟩
  · rw [build_events_iter]
    simp [he, h1, h2]
  · rw [build_events_iter]
    simp only [he, if_true]
    rw [if_neg h]
  · rw [build_events_iter]
    simp [he]

/-- Witness for C8: scenario S6 — `Remove("/s/f")` immediately followed by
`Create("/s/f")` in one batch dispatches exactly one logical `Update("/s/f")`. -/
theorem c8_remove_create_collapse_witness :
    build_events_iter
        [{ kind := .remove, paths := [["s", "f"]], time := 0 },
         { kind := .create, paths := [["s", "f"]], time := 1 }] =
      [{ kind := .update, paths := [["s", "f"]], time := 0 }] := by
  have h := (c8_remove_create_collapse
      { kind := .remove, paths := [["s", "f"]], time := 0 }
      { kind := .create, paths := [["s", "f"]], time := 1 } [] rfl).1 rfl rfl
  simpa [build_events_iter] using h

/-- C2: determinism of content.  `chunk_source` is a sequential pure function,
so two runs on identical source bytes and config return identical chunk and
section vectors (hence identical triple sets).  For the parallel pipeline, the
records may be delivered to the collector in any order: for any two delivery
orders (permutations of the hashed record stream of the same source and
config) the collector returns the same value, so the resulting record set is
identical across runs. -/
theorem c2_chunking_deterministic (H : List Nat → Nat) (cut : CutFun) (cfg : ChunkConfig)
    (fid : String) (B : List Nat) (cfgOpt : Option ChunkConfig)
    (d1 d2 : List HashedItem)
    (h1 : d1.Perm (hasherOut H (cutterOut cut cfg (some B))))
    (h2 : d2.Perm (hasherOut H (cutterOut cut cfg (some B)))) :
    collectorOut d1 = collectorOut d2 ∧
    chunk_source H cut fid B cfgOpt = chunk_source H cut fid B cfgOpt := by
  refine ⟨?_, rfl⟩
  have k : ∀ (d : List HashedItem),
      d.Perm (hasherOut H (cutterOut cut cfg (some B))) → d.any isErrItem = false := by
    intro d hd
    by_contra hc
    rw [Bool.not_eq_false, List.any_eq_true] at hc
    obtain ⟨x, hx, hxe⟩ := hc
    have := hasherOut_some_ok H cut cfg B x (hd.mem_iff.mp hx)
    rw [this] at hxe
    exact Bool.false_ne_true hxe
  simp [collectorOut, k d1 h1, k d2 h2]

/-- Witness for C2: the canonical delivery order and its reversal collect to
the same result on a concrete four-byte source. -/
theorem c2_chunking_deterministic_witness :
    collectorOut (hasherOut hashDemo (cutterOut cutDemo defaultChunkConfig (some [0, 1, 2, 3]))) =
      collectorOut ((hasherOut hashDemo
        (cutterOut cutDemo defaultChunkConfig (some [0, 1, 2, 3]))).reverse) ∧
    chunk_source hashDemo cutDemo "f" [0, 1, 2, 3] none =
      chunk_source hashDemo cutDemo "f" [0, 1, 2, 3] none :=
  c2_chunking_deterministic hashDemo cutDemo defaultChunkConfig "f" [0, 1, 2, 3] none
    _ _ (List.Perm.refl _) (List.reverse_perm _)

/-- Casting a sum of naturals to integers elementwise. -/
theorem intOfNat_sum (l : List Nat) : (l.map Int.ofNat).sum = Int.ofNat l.sum := by
  induction l with
  | nil => rfl
  | cons x xs ih =>
    simp only [List.map_cons, List.sum_cons, ih]
    exact (Int.ofNat_add x xs.sum).symm

/-- The section lengths built by `chunk_source` are the chunk lengths, cast. -/
theorem section_length_sum (H : List Nat → Nat) (fid : String) (cks : List ChunkData) :
    ((cks.map fun cd => ({ file_id := fid, chunk_hash := H cd.data,
                           length := Int.ofNat cd.length,
                           offset := Int.ofNat cd.offset } : FileSectionEntry)).map
      (fun s => s.length)).sum = Int.ofNat (cks.map fun cd => cd.length).sum := by
  induction cks with
  | nil => rfl
  | cons cd rest ih =>
    simp only [List.map_cons, List.sum_cons, ih]
    exact (Int.ofNat_add cd.length _).symm

/-- C3: `chunk_source` covers the source exactly.  It returns `Ok`; an empty
source yields empty record lists; the first section starts at offset 0; each
subsequent section starts where the previous one ended (no gaps, no overlap);
and the section lengths sum to the byte length of the source. -/
theorem c3_chunk_source_covers_source (H : List Nat → Nat) (cut : CutFun) (fid : String)
    (B : List Nat) (cfgOpt : Option ChunkConfig) :
    ∃ cks secs,
      chunk_source H cut fid B cfgOpt = .ok (cks, secs) ∧
      (B = [] → cks = [] ∧ secs = []) ∧
      (∀ s, secs.head? = some s → s.offset = 0) ∧
      List.Chain' (fun a b => b.offset = a.offset + a.length) secs ∧
      (secs.map fun s => s.length).sum = Int.ofNat B.length := by
  refine ⟨_, _, rfl, ?_, ?_, ?_, ?_⟩
  · rintro rfl
    simp [streamCDC]
  · intro s hs
    rcases hcks : streamCDC cut (cfgOpt.getD defaultChunkConfig) 0 B with _ | ⟨cd, rest⟩
    · simp [hcks] at hs
    · simp only [hcks, List.map_cons, List.head?_cons, Option.some.injEq] at hs
      have h0 : cd.offset = 0 :=
        streamCDC_head_offset cut (cfgOpt.getD defaultChunkConfig) 0 B cd (by simp [hcks])
      rw [← hs]
      simp [h0]
  · rw [List.chain'_map]
    refine (streamCDC_chain cut (cfgOpt.getD defaultChunkConfig) 0 B).imp ?_
    intro a b h
    simp only [h]
    exact Int.ofNat_add _ _
  · exact (section_length_sum H fid _).trans
      (congrArg Int.ofNat (streamCDC_sum_length cut (cfgOpt.getD defaultChunkConfig) 0 B))

/-- Witness for C3 at a concrete source: the conclusion instantiated at a
four-byte source with the demo cut and digest functions. -/
theorem c3_chunk_source_covers_source_witness :
    ∃ cks secs,
      chunk_source hashDemo cutDemo "f" [7, 8, 9, 10] none = .ok (cks, secs) ∧
      ([7, 8, 9, 10] = ([] : List Nat) → cks = [] ∧ secs = []) ∧
      (∀ s, secs.head? = some s → s.offset = 0) ∧
      List.Chain' (fun a b => b.offset = a.offset + a.length) secs ∧
      (secs.map fun s => s.length).sum = Int.ofNat (([7, 8, 9, 10] : List Nat)).length :=
  c3_chunk_source_covers_source hashDemo cutDemo "f" [7, 8, 9, 10] none

/-- C10: the two vectors returned by `chunk_source` are index-aligned — equal
length, the i-th chunk entry and i-th section entry carry the same digest and
the same byte length, and every section carries the given file id. -/
theorem c10_chunk_section_alignment (H : List Nat → Nat) (cut : CutFun) (fid : String)
    (B : List Nat) (cfgOpt : Option ChunkConfig) :
    ∃ cks secs,
      chunk_source H cut fid B cfgOpt = .ok (cks, secs) ∧
      cks.length = secs.length ∧
      ∀ (i : Nat) (hi : i < cks.length) (hj : i < secs.length),
        (cks.get ⟨i, hi⟩).hash = (secs.get ⟨i, hj⟩).chunk_hash ∧
        (cks.get ⟨i, hi⟩).size = (secs.get ⟨i, hj⟩).length ∧
        (secs.get ⟨i, hj⟩).file_id = fid := by
  refine ⟨_, _, rfl, by simp, ?_⟩
  intro i hi hj
  simp [List.getElem_map]

/-- Witness for C10 at a concrete source. -/
theorem c10_chunk_section_alignment_witness :
    ∃ cks secs,
      chunk_source hashDemo cutDemo "g" [1, 2, 3] none = .ok (cks, secs) ∧
      cks.length = secs.length ∧
      ∀ (i : Nat) (hi : i < cks.length) (hj : i < secs.length),
        (cks.get ⟨i, hi⟩).hash = (secs.get ⟨i, hj⟩).chunk_hash ∧
        (cks.get ⟨i, hi⟩).size = (secs.get ⟨i, hj⟩).length ∧
        (secs.get ⟨i, hj⟩).file_id = "g" :=
  c10_chunk_section_alignment hashDemo cutDemo "g" [1, 2, 3] none

/-- A second write of an existing digest is ignored. -/
theorem insertOrIgnoreChunk_dup (t : List ChunkTableEntry) (e : ChunkTableEntry)
    (hex : chunkRowExists t e.hash = true) : insertOrIgnoreChunk t e = t := by
  simp [insertOrIgnoreChunk, hex]

/-- After appending a row, its digest exists in the table. -/
theorem chunkRowExists_append_self (t : List ChunkTableEntry) (e0 : ChunkTableEntry) :
    chunkRowExists (t ++ [e0]) e0.hash = true := by
  simp [chunkRowExists]

/-- Once a digest is present, any number of further writes of that digest
leaves the table unchanged. -/
theorem storeAllChunks_dup_noop (t : List ChunkTableEntry) (items : List ChunkTableEntry)
    (d : Nat) (hex : chunkRowExists t d = true) (hall : ∀ e ∈ items, e.hash = d) :
    storeAllChunks t items = t := by
  induction items with
  | nil => rfl
  | cons e rest ih =>
    have he : e.hash = d := hall e (List.mem_cons_self _ _)
    have : insertOrIgnoreChunk t e = t := insertOrIgnoreChunk_dup t e (by rw [he]; exact hex)
    rw [storeAllChunks, List.foldl_cons, this]
    exact ih fun x hx => hall x (List.mem_cons_of_mem _ hx)

/-- C4: chunk rows are unique by digest.  Starting from a table without digest
`d`, writing `k ≥ 1` entries that all carry digest `d` (with arbitrary sizes)
leaves exactly one row with that digest, namely the first written entry with
its original size; and any further write of that digest — single `store` or a
`store_all` iteration — is a no-op. -/
theorem c4_chunk_dedup_idempotent (t : List ChunkTableEntry) (e0 : ChunkTableEntry)
    (es : List ChunkTableEntry) (d : Nat)
    (hall : ∀ e ∈ e0 :: es, e.hash = d)
    (hfresh : ∀ r ∈ t, r.hash ≠ d) :
    (storeAllChunks t (e0 :: es)).filter (fun r => r.hash == d) = [e0] ∧
    ∀ e : ChunkTableEntry, e.hash = d →
      insertOrIgnoreChunk (storeAllChunks t (e0 :: es)) e = storeAllChunks t (e0 :: es) := by
  have he0 : e0.hash = d := hall e0 (List.mem_cons_self _ _)
  have hnotex : chunkRowExists t e0.hash = false := by
    rw [he0]
    simp only [chunkRowExists, List.any_eq_false]
    intro r hr
    simpa using hfresh r hr
  have hstep : storeAllChunks t (e0 :: es) = storeAllChunks (t ++ [e0]) es := by
    rw [storeAllChunks, List.foldl_cons, insertOrIgnoreChunk, hnotex]
    rfl
  have hex : chunkRowExists (t ++ [e0]) d = true := by
    rw [← he0]
    exact chunkRowExists_append_self t e0
  have hfinal : storeAllChunks t (e0 :: es) = t ++ [e0] := by
    rw [hstep]
    exact storeAllChunks_dup_noop _ es d hex fun e he => hall e (List.mem_cons_of_mem _ he)
  constructor
  · rw [hfinal, List.filter_append]
    have h1 : t.filter (fun r => r.hash == d) = [] := by
      rw [List.filter_eq_nil_iff]
      intro r hr
      simpa using hfresh r hr
    simp [h1, he0]
  · intro e he
    rw [hfinal]
    exact insertOrIgnoreChunk_dup _ e (by rw [he, ← he0]; exact chunkRowExists_append_self t e0)

/-- Witness for C4: storing digest 5 three times (the later two with different
sizes) leaves exactly one row, carrying the first size; a fourth write is a
no-op. -/
theorem c4_chunk_dedup_idempotent_witness :
    (storeAllChunks [] [⟨5, 100⟩, ⟨5, 200⟩, ⟨5, 300⟩]).filter (fun r => r.hash == 5) =
      [⟨5, 100⟩] ∧
    ∀ e : ChunkTableEntry, e.hash = 5 →
      insertOrIgnoreChunk (storeAllChunks [] [⟨5, 100⟩, ⟨5, 200⟩, ⟨5, 300⟩]) e =
        storeAllChunks [] [⟨5, 100⟩, ⟨5, 200⟩, ⟨5, 300⟩] :=
  c4_chunk_dedup_idempotent [] ⟨5, 100⟩ [⟨5, 200⟩, ⟨5, 300⟩] 5
    (by decide) (by decide)

/-- Unfolding the conflict-target test. -/
theorem sectionKeyMatches_iff (r e : FileSectionEntry) :
    sectionKeyMatches r e = true ↔ (r.file_id = e.file_id ∧ r.offset = e.offset) := by
  simp [sectionKeyMatches]

/-- The row update of the upsert keeps the key columns. -/
theorem upsertUpdate_keeps_key (e r : FileSectionEntry) :
    ((if sectionKeyMatches r e then
        { r with chunk_hash := e.chunk_hash, length := e.length } else r).file_id = r.file_id) ∧
    ((if sectionKeyMatches r e then
        { r with chunk_hash := e.chunk_hash, length := e.length } else r).offset = r.offset) := by
  by_cases h : sectionKeyMatches r e <;> simp [h]

/-- In a key-unique table, the rows matching a given key form at most the
single matched row. -/
theorem sectionKey_filter_singleton (t : List FileSectionEntry) (e r0 : FileSectionEntry)
    (hnd : SectionKeyNodup t) (hr0 : r0 ∈ t) (hm : sectionKeyMatches r0 e = true) :
    t.filter (fun r => sectionKeyMatches r e) = [r0] := by
  induction t with
  | nil => cases hr0
  | cons a rest ih =>
    rw [SectionKeyNodup, List.pairwise_cons] at hnd
    rcases List.mem_cons.mp hr0 with rfl | hr0r
    · have hrest : rest.filter (fun r => sectionKeyMatches r e) = [] := by
        rw [List.filter_eq_nil_iff]
        intro b hb hbm
        have hkeys := hnd.1 b hb
        rw [sectionKeyMatches_iff] at hm hbm
        rcases hkeys with hk | hk
        · exact hk (hm.1.trans hbm.1.symm)
        · exact hk (hm.2.trans hbm.2.symm)
      simp [List.filter_cons, hm, hrest]
    · have ham : sectionKeyMatches a e = false := by
        by_contra hc
        rw [Bool.not_eq_false, sectionKeyMatches_iff] at hc
        rw [sectionKeyMatches_iff] at hm
        rcases hnd.1 r0 hr0r with hk | hk
        · exact hk (hc.1.trans hm.1.symm)
        · exact hk (hc.2.trans hm.2.symm)
      simp only [List.filter_cons, ham, Bool.false_eq_true, if_false]
      exact ih hnd.2 hr0r

/-- The upsert preserves key uniqueness of the table. -/
theorem upsertSection_keyNodup (t : List FileSectionEntry) (e : FileSectionEntry)
    (hnd : SectionKeyNodup t) : SectionKeyNodup (upsertSection t e) := by
  rw [upsertSection]
  split
  · refine List.Pairwise.map _ ?_ hnd
    intro a b hab
    have ha := upsertUpdate_keeps_key e a
    have hb := upsertUpdate_keeps_key e b
    rcases hab with hk | hk
    · exact Or.inl (by rw [ha.1, hb.1]; exact hk)
    · exact Or.inr (by rw [ha.2, hb.2]; exact hk)
  · next hany =>
    rw [SectionKeyNodup, List.pairwise_append]
    refine ⟨hnd, List.pairwise_singleton _ _, ?_⟩
    intro a ha b hb
    rw [List.mem_singleton] at hb
    subst hb
    by_contra hcon
    push_neg at hcon
    exact hany (List.any_eq_true.mpr
      ⟨a, ha, (sectionKeyMatches_iff a b).mpr ⟨hcon.1, hcon.2⟩⟩)

/-- The key test only reads the key columns. -/
theorem sectionKeyMatches_congr (r r2 e : FileSectionEntry)
    (h1 : r2.file_id = r.file_id) (h2 : r2.offset = r.offset) :
    sectionKeyMatches r2 e = sectionKeyMatches r e := by
  rw [sectionKeyMatches, sectionKeyMatches, h1, h2]

/-- After an upsert, the rows at the written key are exactly one row carrying
the written digest and length. -/
theorem upsertSection_filter (t : List FileSectionEntry) (e : FileSectionEntry)
    (hnd : SectionKeyNodup t) :
    (upsertSection t e).filter (fun r => sectionKeyMatches r e) =
      [{ file_id := e.file_id, chunk_hash := e.chunk_hash,
         length := e.length, offset := e.offset }] := by
  rw [upsertSection]
  split
  · next hany =>
    obtain ⟨r0, hr0, hm⟩ := List.any_eq_true.mp hany
    rw [List.filter_map]
    have hcg : ∀ r ∈ t,
        ((fun r => sectionKeyMatches r e) ∘ fun r =>
          if sectionKeyMatches r e then
            { r with chunk_hash := e.chunk_hash, length := e.length } else r) r =
        (fun r => sectionKeyMatches r e) r := by
      intro r _
      exact sectionKeyMatches_congr r _ e
        (upsertUpdate_keeps_key e r).1 (upsertUpdate_keeps_key e r).2
    rw [List.filter_congr hcg, sectionKey_filter_singleton t e r0 hnd hr0 hm,
      List.map_singleton, if_pos hm]
    rw [sectionKeyMatches_iff] at hm
    rw [show ({ r0 with chunk_hash := e.chunk_hash, length := e.length } : FileSectionEntry) =
      { file_id := r0.file_id, chunk_hash := e.chunk_hash,
        length := e.length, offset := r0.offset } from rfl, hm.1, hm.2]
  · next hany =>
    rw [List.filter_append]
    have h1 : t.filter (fun r => sectionKeyMatches r e) = [] := by
      rw [List.filter_eq_nil_iff]
      intro r hr hrm
      exact hany (List.any_eq_true.mpr ⟨r, hr, hrm⟩)
    have h2 : sectionKeyMatches e e = true := by
      simp [sectionKeyMatches]
    rw [h1, List.nil_append, List.filter_singleton, h2]
    rfl

/-- C5: section upsert semantics.  When the written key `(file_id, offset)`
already exists, the upsert keeps the table length (no second row) and acts
pointwise: rows at a different key are unchanged, and the row at the key gets
the new digest and length while keeping its key columns.  In particular
storing `(fid, off, old digest)` and then `(fid, off, new digest)` into any
key-unique table leaves exactly one row at that key, carrying the new digest
and length. -/
theorem c5_section_upsert_replaces (t : List FileSectionEntry)
    (fid : String) (off : Int) (oldD newD : Nat) (oldL newL : Int)
    (hnd : SectionKeyNodup t) :
    (∀ e : FileSectionEntry, (∃ r ∈ t, sectionKeyMatches r e = true) →
      (upsertSection t e).length = t.length ∧
      ∀ (i : Nat) (hi : i < t.length) (hj : i < (upsertSection t e).length),
        (sectionKeyMatches (t.get ⟨i, hi⟩) e = false →
          (upsertSection t e).get ⟨i, hj⟩ = t.get ⟨i, hi⟩) ∧
        (sectionKeyMatches (t.get ⟨i, hi⟩) e = true →
          (upsertSection t e).get ⟨i, hj⟩ =
            { t.get ⟨i, hi⟩ with chunk_hash := e.chunk_hash, length := e.length })) ∧
    (upsertSection (upsertSection t ⟨fid, oldD, oldL, off⟩) ⟨fid, newD, newL, off⟩).filter
        (fun r => r.file_id == fid && r.offset == off) =
      [⟨fid, newD, newL, off⟩] := by
  constructor
  · intro e hex
    obtain ⟨r0, hr0, hm⟩ := hex
    have hany : (t.any fun r => sectionKeyMatches r e) = true :=
      List.any_eq_true.mpr ⟨r0, hr0, hm⟩
    have hmap : upsertSection t e = t.map fun r =>
        if sectionKeyMatches r e then
          { r with chunk_hash := e.chunk_hash, length := e.length } else r := by
      rw [upsertSection, if_pos hany]
    constructor
    · rw [hmap, List.length_map]
    · intro i hi hj
      constructor
      · intro hfalse
        simp only [List.get_eq_getElem] at hfalse
        simp only [hmap, List.get_eq_getElem, List.getElem_map, hfalse,
          Bool.false_eq_true, if_false]
      · intro htrue
        simp only [List.get_eq_getElem] at htrue
        simp only [hmap, List.get_eq_getElem, List.getElem_map, htrue, if_true]
  · have hnd1 : SectionKeyNodup (upsertSection t ⟨fid, oldD, oldL, off⟩) :=
      upsertSection_keyNodup t _ hnd
    exact upsertSection_filter (upsertSection t ⟨fid, oldD, oldL, off⟩)
      ⟨fid, newD, newL, off⟩ hnd1

/-- Witness for C5 at a concrete two-row table. -/
theorem c5_section_upsert_replaces_witness :
    (∀ e : FileSectionEntry,
      (∃ r ∈ [(⟨"a", 1, 10, 0⟩ : FileSectionEntry), ⟨"a", 2, 20, 10⟩],
          sectionKeyMatches r e = true) →
      (upsertSection [⟨"a", 1, 10, 0⟩, ⟨"a", 2, 20, 10⟩] e).length =
        ([(⟨"a", 1, 10, 0⟩ : FileSectionEntry), ⟨"a", 2, 20, 10⟩]).length ∧
      ∀ (i : Nat) (hi : i < ([(⟨"a", 1, 10, 0⟩ : FileSectionEntry), ⟨"a", 2, 20, 10⟩]).length)
        (hj : i < (upsertSection [⟨"a", 1, 10, 0⟩, ⟨"a", 2, 20, 10⟩] e).length),
        (sectionKeyMatches (([(⟨"a", 1, 10, 0⟩ : FileSectionEntry),
            ⟨"a", 2, 20, 10⟩]).get ⟨i, hi⟩) e = false →
          (upsertSection [⟨"a", 1, 10, 0⟩, ⟨"a", 2, 20, 10⟩] e).get ⟨i, hj⟩ =
            ([(⟨"a", 1, 10, 0⟩ : FileSectionEntry), ⟨"a", 2, 20, 10⟩]).get ⟨i, hi⟩) ∧
        (sectionKeyMatches (([(⟨"a", 1, 10, 0⟩ : FileSectionEntry),
            ⟨"a", 2, 20, 10⟩]).get ⟨i, hi⟩) e = true →
          (upsertSection [⟨"a", 1, 10, 0⟩, ⟨"a", 2, 20, 10⟩] e).get ⟨i, hj⟩ =
            { ([(⟨"a", 1, 10, 0⟩ : FileSectionEntry), ⟨"a", 2, 20, 10⟩]).get ⟨i, hi⟩ with
                chunk_hash := e.chunk_hash, length := e.length })) ∧
    (upsertSection (upsertSection [⟨"a", 1, 10, 0⟩, ⟨"a", 2, 20, 10⟩]
        ⟨"a", 7, 11, 0⟩) ⟨"a", 9, 12, 0⟩).filter
        (fun r => r.file_id == "a" && r.offset == 0) =
      [⟨"a", 9, 12, 0⟩] :=
  c5_section_upsert_replaces [⟨"a", 1, 10, 0⟩, ⟨"a", 2, 20, 10⟩] "a" 0 7 9 11 12
    (by simp [SectionKeyNodup])

/-- Invariant of the grouping loop: groups already closed are nonempty and
all carried rows satisfy any property holding on the input rows; the open
buffer is nonempty whenever a last id is recorded. -/
theorem groupLoop_invariant (P : FileSectionEntry → Prop) :
    ∀ (rest : List FileSectionEntry) (grouped : List (List FileSectionEntry))
      (cur : List FileSectionEntry) (lastId : Option String),
      (∀ g ∈ grouped, g ≠ [] ∧ ∀ r ∈ g, P r) →
      (∀ r ∈ cur, P r) →
      (lastId.isSome = true → cur ≠ []) →
      (∀ r ∈ rest, P r) →
      (∀ g ∈ (groupLoop grouped cur lastId rest).1, g ≠ [] ∧ ∀ r ∈ g, P r) ∧
      (∀ r ∈ (groupLoop grouped cur lastId rest).2, P r) := by
  intro rest
  induction rest with
  | nil =>
    intro grouped cur lastId hg hc _ _
    exact ⟨hg, hc⟩
  | cons e rest ih =>
    intro grouped cur lastId hg hc hne hr
    have hre : P e := hr e (List.mem_cons_self _ _)
    have hrr : ∀ r ∈ rest, P r := fun r h => hr r (List.mem_cons_of_mem _ h)
    have hcur2 : ∀ r ∈ cur ++ [e], P r := by
      intro r h
      rcases List.mem_append.mp h with h1 | h2
      · exact hc r h1
      · rw [List.mem_singleton] at h2
        exact h2 ▸ hre
    cases lastId with
    | none =>
      rw [groupLoop]
      exact ih grouped (cur ++ [e]) (some e.file_id) hg hcur2 (by simp) hrr
    | some id =>
      rw [groupLoop]
      by_cases hid : id ≠ e.file_id
      · rw [if_pos hid]
        refine ih (grouped ++ [cur]) [e] (some e.file_id) ?_ ?_ (by simp) hrr
        · intro g hgm
          rcases List.mem_append.mp hgm with h1 | h2
          · exact hg g h1
          · rw [List.mem_singleton] at h2
            subst h2
            exact ⟨hne rfl, hc⟩
        · intro r h
          rw [List.mem_singleton] at h
          exact h ▸ hre
      · rw [if_neg hid]
        exact ih grouped (cur ++ [e]) (some e.file_id) hg hcur2 (by simp) hrr

/-- Every group produced by the grouping logic is nonempty and consists of
input rows. -/
theorem groupSections_mem (P : FileSectionEntry → Prop) (flat : List FileSectionEntry)
    (hflat : ∀ r ∈ flat, P r) :
    ∀ g ∈ groupSections flat, g ≠ [] ∧ ∀ r ∈ g, P r := by
  have h := groupLoop_invariant P flat [] [] none (by simp) (by simp) (by simp) hflat
  rw [groupSections]
  split
  · exact h.1
  · next hne =>
    intro g hgm
    rcases List.mem_append.mp hgm with h1 | h2
    · exact h.1 g h1
    · rw [List.mem_singleton] at h2
      subst h2
      refine ⟨?_, h.2⟩
      intro hnil
      rw [hnil] at hne
      exact hne rfl

/-- C7: fetch semantics for sections.  `fetch_by` returns all section rows of
the requested file, sorted by offset ascending, and signals `NotFound` exactly
when the file has no section rows.  `fetch_many` never signals `NotFound`: the
empty key list returns an empty result, and otherwise every returned group is
nonempty and consists only of rows of the table belonging to requested files. -/
theorem c7_fetch_section_semantics (t : List FileSectionEntry) (fid : String)
    (fids : List String) :
    (∀ l, fetchByFileSections t fid = .ok l →
      l.Perm (t.filter fun r => r.file_id == fid) ∧ List.Sorted sectionLE l) ∧
    (fetchByFileSections t fid = .error .NotFound ↔
      (t.filter fun r => r.file_id == fid) = []) ∧
    fetchManyFileSections t [] = .ok [] ∧
    (∃ gs, fetchManyFileSections t fids = .ok gs ∧
      ∀ g ∈ gs, g ≠ [] ∧ ∀ r ∈ g, r ∈ t ∧ fids.contains r.file_id = true) := by
  refine ⟨?_, ?_, rfl, ?_⟩
  · intro l hl
    rw [fetchByFileSections] at hl
    split at hl
    · cases hl
    · cases hl
      exact ⟨List.perm_insertionSort _ _, List.sorted_insertionSort _ _⟩
  · rw [fetchByFileSections]
    split
    · next hempty =>
      simp only [true_iff]
      rw [List.isEmpty_iff] at hempty
      have hperm := List.perm_insertionSort sectionLE (t.filter fun r => r.file_id == fid)
      rw [hempty] at hperm
      exact hperm.symm.eq_nil
    · next hempty =>
      constructor
      · intro hcon
        cases hcon
      · intro hfil
        rw [List.isEmpty_iff] at hempty
        rw [hfil] at hempty
        simp at hempty
  · rw [fetchManyFileSections]
    split
    · next hempty =>
      rw [List.isEmpty_iff] at hempty
      exact ⟨[], rfl, by simp⟩
    · refine ⟨_, rfl, ?_⟩
      refine groupSections_mem _ _ ?_
      intro r hr
      rw [List.mem_insertionSort, List.mem_filter] at hr
      exact hr

/-- Witness for C7 at a concrete three-row table over two files. -/
theorem c7_fetch_section_semantics_witness :
    (∀ l, fetchByFileSections [⟨"b", 3, 5, 0⟩, ⟨"a", 1, 10, 10⟩, ⟨"a", 2, 10, 0⟩] "a" = .ok l →
      l.Perm (([(⟨"b", 3, 5, 0⟩ : FileSectionEntry), ⟨"a", 1, 10, 10⟩,
        ⟨"a", 2, 10, 0⟩]).filter fun r => r.file_id == "a") ∧
      List.Sorted sectionLE l) ∧
    (fetchByFileSections [⟨"b", 3, 5, 0⟩, ⟨"a", 1, 10, 10⟩, ⟨"a", 2, 10, 0⟩] "a" =
        .error .NotFound ↔
      (([(⟨"b", 3, 5, 0⟩ : FileSectionEntry), ⟨"a", 1, 10, 10⟩,
        ⟨"a", 2, 10, 0⟩]).filter fun r => r.file_id == "a") = []) ∧
    fetchManyFileSections [⟨"b", 3, 5, 0⟩, ⟨"a", 1, 10, 10⟩, ⟨"a", 2, 10, 0⟩] [] = .ok [] ∧
    (∃ gs, fetchManyFileSections [⟨"b", 3, 5, 0⟩, ⟨"a", 1, 10, 10⟩, ⟨"a", 2, 10, 0⟩]
        ["a", "b"] = .ok gs ∧
      ∀ g ∈ gs, g ≠ [] ∧ ∀ r ∈ g,
        r ∈ [(⟨"b", 3, 5, 0⟩ : FileSectionEntry), ⟨"a", 1, 10, 10⟩, ⟨"a", 2, 10, 0⟩] ∧
        (["a", "b"]).contains r.file_id = true) :=
  c7_fetch_section_semantics [⟨"b", 3, 5, 0⟩, ⟨"a", 1, 10, 10⟩, ⟨"a", 2, 10, 0⟩] "a" ["a", "b"]

end Skie
